import Mathlib

/-!
Verification model of the CyberDropDownloader core: the completion-ledger
(`history_table.py`), the coomer crawler's favorites/profile flows
(`coomer_crawler.py`), and the content hasher (`hash_manager.py`).
Python/SQL code is shallowly embedded as pure Lean functions over explicit
state; SQLite tables are lists of rows, timestamps and file sizes are passed
in explicitly.
-/

/-! ## Python string primitives

`containsL s pat` models Python's `pat in s` on character lists;
`beforeFirstL s pat` models `s.split(pat)[0]` (the portion before the first
occurrence of `pat`, the whole string when `pat` does not occur);
`pyDropLast` models the slice `s[:-1]` (empty string stays empty). -/

def containsL (s pat : List Char) : Bool :=
  match s with
  | [] => pat.isEmpty
  | c :: rest => pat.isPrefixOf (c :: rest) || containsL rest pat

def beforeFirstL (s pat : List Char) : List Char :=
  match s with
  | [] => []
  | c :: rest => if pat.isPrefixOf (c :: rest) then [] else c :: beforeFirstL rest pat

def strContains (s pat : String) : Bool := containsL s.data pat.data

def strSplitHead (s pat : String) : String := ⟨beforeFirstL s.data pat.data⟩

def pyDropLast (s : String) : String := ⟨s.data.dropLast⟩

/-! ## URL and media-item data model -/

/-- A yarl URL as the ledger sees it: its `path` and its `name`
(the final path segment). -/
structure UrlM where
  path : String
  name : String
deriving DecidableEq

/-- A resolved downloadable file, with the fields `history_table.py` reads.
`referer` is `str(media_item.referer)`; `download_filename` is `none` when the
Python attribute is not a `str` (the code substitutes `""` then). -/
structure MediaItem where
  url : UrlM
  referer : String
  album_id : Option String
  download_folder : String
  download_filename : Option String
  original_filename : String
deriving DecidableEq

/-- One row of the `media` table (current 11-column shape). -/
structure MediaRow where
  domain : String
  url_path : String
  referer : String
  album_id : Option String
  download_path : String
  download_filename : String
  original_filename : String
  completed : Int
  created_at : Option Int
  completed_at : Option Int
  file_size : Option Int
deriving DecidableEq

/-- The `HistoryTable` state: the `media` table rows plus the
`ignore_history` flag. -/
structure HistoryState where
  rows : List MediaRow
  ignore_history : Bool
deriving DecidableEq

/-- `get_db_path` from `history_table.py`: the URL path, with the e-hentai
keystamp suffix stripped (`url_path.split('keystamp')[0][:-1]`) and with
mediafire URLs reduced to their basename. -/
def get_db_path (url : UrlM) (referer : String) : String :=
  let url_path := url.path
  let url_path :=
    if referer != "" && strContains referer "e-hentai" then
      pyDropLast (strSplitHead url_path "keystamp")
    else url_path
  if referer != "" && strContains referer "mediafire" then url.name else url_path

/-- `get_db_domain` from `history_table.py`. -/
def get_db_domain (domain : String) : String :=
  if ["img.kiwi", "jpg.church", "jpg.homes", "jpg.fish", "jpg.fishing", "jpg.pet",
      "jpeg.pet", "jpg1.su", "jpg2.su", "jpg3.su"].contains domain
  then "sharex" else domain

/-- The WHERE clause `domain = ? and url_path = ?`. -/
def keyMatch (d p : String) (r : MediaRow) : Bool :=
  r.domain == d && r.url_path == p

/-- The WHERE clause `domain = 'no_crawler' and url_path = ? and referer = ?`. -/
def noCrawlerMatch (p ref : String) (r : MediaRow) : Bool :=
  r.domain == "no_crawler" && r.url_path == p && r.referer == ref

/-- The composite primary key of a row. -/
def rowKey (r : MediaRow) : String × String := (r.domain, r.url_path)

/-- The PRIMARY KEY (domain, url_path) constraint of the `media` table. -/
def PKUnique (rows : List MediaRow) : Prop :=
  rows.Pairwise (fun a b => rowKey a ≠ rowKey b)

/-- Number of elements satisfying a Boolean predicate. -/
def countB {α : Type} (p : α → Bool) : List α → Nat
  | [] => 0
  | a :: l => (if p a then 1 else 0) + countB p l

/-- The normalized ledger key an operation on `(domain, media_item)` acts on. -/
def insKey (domain : String) (m : MediaItem) : String × String :=
  (get_db_domain domain, get_db_path m.url m.referer)

/-! ## HistoryTable operations -/

/-- `HistoryTable.check_complete`: normalizes domain and path (the code passes
the domain as the referer argument of `get_db_path`), fetches the row for the
key, and returns true when it exists with `completed != 0`, first updating the
stored referer when it drifted. Short-circuits to false in ignore-history
mode. Returns the answer together with the possibly-updated state. -/
def check_complete (domain : String) (url : UrlM) (referer : String) (s : HistoryState) :
    Bool × HistoryState :=
  if s.ignore_history then (false, s)
  else
    let d := get_db_domain domain
    let p := get_db_path url d
    match (s.rows.filter (keyMatch d p)).head? with
    | none => (false, s)
    | some row =>
      if row.completed == 0 then (false, s)
      else if referer == row.referer then (true, s)
      else (true, { s with rows := s.rows.map (fun r =>
             if keyMatch d p r then { r with referer := referer } else r) })

/-- Step 1 of `insert_incompleted`: the `UPDATE media SET domain = ?, album_id
= ? WHERE domain = 'no_crawler' ...` statement. When moving the matched
placeholder row to the concrete domain would collide with an existing row of
that key, SQLite aborts the statement with IntegrityError and the code instead
deletes the placeholder rows (`DELETE ... WHERE domain = 'no_crawler' and
url_path = ?`). -/
def insStep1 (d p ref : String) (album : Option String) (rows : List MediaRow) :
    List MediaRow :=
  let hasMatch := rows.any (noCrawlerMatch p ref)
  let hasTarget := rows.any (fun r => !(noCrawlerMatch p ref r) && keyMatch d p r)
  if hasMatch && !(d == "no_crawler") && hasTarget then
    rows.filter (fun r => !(r.domain == "no_crawler" && r.url_path == p))
  else
    rows.map (fun r =>
      if noCrawlerMatch p ref r then { r with domain := d, album_id := album } else r)

/-- The row the `INSERT OR IGNORE` statement of `insert_incompleted` supplies:
`completed = 0`, `created_at = CURRENT_TIMESTAMP`, the remaining optional
columns NULL. -/
def newMediaRow (d p ref : String) (album : Option String) (dpath df ofn : String)
    (t : Int) : MediaRow :=
  { domain := d, url_path := p, referer := ref, album_id := album,
    download_path := dpath, download_filename := df, original_filename := ofn,
    completed := 0, created_at := some t, completed_at := none, file_size := none }

/-- Step 2 of `insert_incompleted`: `INSERT OR IGNORE` — the row is appended
only when no row with its primary key exists. -/
def insStep2 (row : MediaRow) (rows : List MediaRow) : List MediaRow :=
  if rows.any (keyMatch row.domain row.url_path) then rows else rows ++ [row]

/-- Step 3 of `insert_incompleted`: `UPDATE media SET download_filename = ?
WHERE domain = ? and url_path = ?`. -/
def insStep3 (d p df : String) (rows : List MediaRow) : List MediaRow :=
  rows.map (fun r => if keyMatch d p r then { r with download_filename := df } else r)

/-- The row-level effect of `HistoryTable.insert_incompleted`. -/
def insRows (d p ref : String) (album : Option String) (dpath df ofn : String)
    (t : Int) (rows : List MediaRow) : List MediaRow :=
  insStep3 d p df (insStep2 (newMediaRow d p ref album dpath df ofn t) (insStep1 d p ref album rows))

/-- `HistoryTable.insert_incompleted`: migrate a placeholder-domain record in
place (delete it on key collision), insert-or-ignore the incomplete record,
then update its `download_filename`. `t` stands for CURRENT_TIMESTAMP. -/
def insert_incompleted (domain : String) (m : MediaItem) (t : Int) (s : HistoryState) :
    HistoryState :=
  let d := get_db_domain domain
  let p := get_db_path m.url m.referer
  let df := m.download_filename.getD ""
  { s with rows := (insRows d p m.referer m.album_id m.download_folder df
      m.original_filename t s.rows) }

/-- `HistoryTable.mark_complete`: `UPDATE media SET completed = 1,
completed_at = CURRENT_TIMESTAMP WHERE domain = ? and url_path = ?`. -/
def mark_complete (domain : String) (m : MediaItem) (t : Int) (s : HistoryState) :
    HistoryState :=
  let d := get_db_domain domain
  let p := get_db_path m.url m.referer
  { s with rows := s.rows.map (fun r =>
      if keyMatch d p r then { r with completed := 1, completed_at := some t } else r) }

/-- `HistoryTable.set_album_id`. -/
def set_album_id (domain : String) (m : MediaItem) (s : HistoryState) : HistoryState :=
  let d := get_db_domain domain
  let p := get_db_path m.url m.referer
  { s with rows := s.rows.map (fun r =>
      if keyMatch d p r then { r with album_id := m.album_id } else r) }

/-- `HistoryTable.add_filesize`; the stat'ed size is passed in. -/
def add_filesize (domain : String) (m : MediaItem) (size : Int) (s : HistoryState) :
    HistoryState :=
  let d := get_db_domain domain
  let p := get_db_path m.url m.referer
  { s with rows := s.rows.map (fun r =>
      if keyMatch d p r then { r with file_size := some size } else r) }

/-- A Python value as returned by a cursor here: an int, or a row (a tuple of
ints — the EXISTS query yields a single 0/1 column). Python's `==` between a
tuple and an int is False. -/
inductive PyVal where
  | vint (n : Int)
  | vtuple (vs : List Int)
deriving DecidableEq

/-- `HistoryTable.check_filename_exists`: runs
`SELECT EXISTS(SELECT 1 FROM media WHERE download_filename = ?)`, fetches the
one-element result row, and compares that row — a tuple — with the integer 1
(`sql_file_check == 1`). -/
def check_filename_exists (filename : String) (s : HistoryState) : Bool :=
  let existsFlag : Int := if s.rows.any (fun r => r.download_filename == filename) then 1 else 0
  let sql_file_check : PyVal := PyVal.vtuple [existsFlag]
  sql_file_check == PyVal.vint 1

/-- One `INSERT OR REPLACE INTO media` of the bunkr fix pass: replace drops
any row already holding the target key (`bunkrr`, url_path) and appends the
entry rewritten to domain `bunkrr`. -/
def bunkrStep (acc : List MediaRow) (e : MediaRow) : List MediaRow :=
  (acc.filter (fun r => !(keyMatch "bunkrr" e.url_path r))) ++ [{ e with domain := "bunkrr" }]

/-- `HistoryTable.fix_bunkr_v4_entries`: copy every `completed = 1` row under
domain `bunkr` to domain `bunkrr` with `INSERT OR REPLACE`, then delete every
row under `bunkr`. -/
def fix_bunkr_v4_entries (s : HistoryState) : HistoryState :=
  let bunkr_entries := s.rows.filter (fun r => r.domain == "bunkr" && r.completed == 1)
  let rows1 := bunkr_entries.foldl bunkrStep s.rows
  { s with rows := rows1.filter (fun r => !(r.domain == "bunkr")) }

/-! ## Ledger operation sequences (for the monotonicity invariant) -/

/-- A public mutating or checking ledger operation, with the timestamp or
file size its SQL would read from the environment. -/
inductive LedgerOp where
  | insertIncompleted (domain : String) (m : MediaItem) (t : Int)
  | markComplete (domain : String) (m : MediaItem) (t : Int)
  | checkComplete (domain : String) (url : UrlM) (referer : String)
  | setAlbumId (domain : String) (m : MediaItem)
  | addFilesize (domain : String) (m : MediaItem) (size : Int)

/-- State transition of one ledger operation. -/
def applyOp (s : HistoryState) : LedgerOp → HistoryState
  | .insertIncompleted d m t => insert_incompleted d m t s
  | .markComplete d m t => mark_complete d m t s
  | .checkComplete d u ref => (check_complete d u ref s).2
  | .setAlbumId d m => set_album_id d m s
  | .addFilesize d m sz => add_filesize d m sz s

/-- The key `k` has at least one row, and every row under it is completed. -/
def KeyDoneRows (k : String × String) (rows : List MediaRow) : Prop :=
  (∃ r ∈ rows, rowKey r = k) ∧ ∀ r ∈ rows, rowKey r = k → r.completed ≠ 0

/-- `KeyDoneRows` on a ledger state. -/
def KeyDone (k : String × String) (s : HistoryState) : Prop :=
  KeyDoneRows k s.rows

/-! ## Legacy schema and `fix_primary_keys`

`table_definitions.py` (with `create_history` / `create_fixed_history`) is not
among the sources, so the two table shapes are modelled from the spec: the
legacy `media` table has the seven columns domain, url_path, referer,
download_path, download_filename, original_filename, completed and no primary
key on its first column; the corrected table adds a composite
PRIMARY KEY (domain, url_path), so the pragma pk flag of its first column is
nonzero. -/

/-- One row of the legacy seven-column `media` table. -/
structure LegacyRow where
  domain : String
  url_path : String
  referer : String
  download_path : String
  download_filename : String
  original_filename : String
  completed : Int
deriving DecidableEq

/-- Modelled from the spec: the `media` table together with its schema shape.
`firstColPk` is `pragma table_info(media)`'s pk flag of the first column —
true exactly for the corrected schema of `create_fixed_history`. -/
structure MediaDB where
  firstColPk : Bool
  rows : List LegacyRow
deriving DecidableEq

/-- The GROUP BY key domain, url_path, original_filename. -/
def legacyKey (r : LegacyRow) : String × String × String :=
  (r.domain, r.url_path, r.original_filename)

/-- Whether two legacy rows fall into the same GROUP BY group. -/
def sameGroup (a b : LegacyRow) : Bool :=
  a.domain == b.domain && a.url_path == b.url_path &&
    a.original_filename == b.original_filename

/-- Whether two legacy rows collide on the corrected PRIMARY KEY
(domain, url_path). -/
def samePk (a b : LegacyRow) : Bool :=
  a.domain == b.domain && a.url_path == b.url_path

/-- One representative per GROUP BY group, keeping the first row of each
group in table order (the spec requires an arbitrary but stable
representative). `seen` holds rows whose groups are already represented. -/
def dedupAux (seen : List LegacyRow) : List LegacyRow → List LegacyRow
  | [] => []
  | r :: rest =>
    if seen.any (fun x => sameGroup r x) then dedupAux seen rest
    else r :: dedupAux (r :: seen) rest

/-- The row set produced by `SELECT * FROM media GROUP BY domain, url_path,
original_filename`. -/
def dedupByKey (l : List LegacyRow) : List LegacyRow := dedupAux [] l

/-- A storage fault surfaced by sqlite. -/
inductive SqlError where
  | integrityError
deriving DecidableEq

/-- The `INSERT INTO media_copy ... SELECT ...` statement: rows are inserted
one by one into the freshly created constrained table; a PRIMARY KEY collision
aborts the whole statement with IntegrityError. -/
def insertAllPk : List LegacyRow → List LegacyRow → Except SqlError (List LegacyRow)
  | acc, [] => .ok acc
  | acc, r :: rest =>
    if acc.any (fun x => samePk x r) then .error .integrityError
    else insertAllPk (acc ++ [r]) rest

/-- `HistoryTable.fix_primary_keys`: when the first column of `media` carries
no pk flag, rebuild — create the corrected table, copy one representative per
(domain, url_path, original_filename) group, drop the old table and rename.
An IntegrityError during the copy propagates and leaves the rebuild
unapplied. -/
def fix_primary_keys (db : MediaDB) : Except SqlError MediaDB :=
  if db.firstColPk then .ok db
  else
    match insertAllPk [] (dedupByKey db.rows) with
    | .error e => .error e
    | .ok newRows => .ok { firstColPk := true, rows := newRows }

/-- No two rows sharing the corrected primary key (domain, url_path) disagree
on original_filename — the condition under which the legacy rebuild's GROUP BY
rows fit the corrected table. -/
def pkCompatible (rows : List LegacyRow) : Prop :=
  ∀ a ∈ rows, ∀ b ∈ rows, a.domain = b.domain → a.url_path = b.url_path →
    a.original_filename = b.original_filename

/-! ## Coomer crawler: favorites and profile flows -/

/-- A favorited-artist entry of the favourites JSON response. -/
structure FavUser where
  id : String
  name : String
  service : String
deriving DecidableEq

/-- The typed failure `ScrapeFailure(status, message)` of the crawler. -/
inductive ScrapeErr where
  | scrapeFailure (status : Nat) (message : String)
deriving DecidableEq

/-- Outcome of the outbound `get_json` call for the favourites listing. -/
inductive FetchResult where
  | ok (users : List FavUser)
  | fail (e : ScrapeErr)
deriving DecidableEq

/-- The configuration and transport environment `favorites` reads:
`authentication_data['Coomer']['session']` (empty string when no credential is
configured) and the favourites fetch outcome. -/
structure CoomerEnv where
  session : String
  favResponse : FetchResult
deriving DecidableEq

/-- A child ScrapeItem spawned for a favorited artist:
`https://coomer.su/{service}/user/{id}`. -/
structure ChildItem where
  service : String
  id : String
deriving DecidableEq

/-- Observable outcome of one `favorites` invocation: the raised failure if
any, the children spawned, the number of outbound fetches issued, and the
shared client's session cookie when the call completes. -/
structure FavOutcome where
  result : Option ScrapeErr
  spawned : List ChildItem
  fetchCount : Nat
  finalCookie : String
deriving DecidableEq

/-- The failure the spec names `AuthRequiredFailure`: the code realizes it as
`ScrapeFailure(401, ...)` raised before any fetch. -/
def AuthRequiredFailure : ScrapeErr :=
  .scrapeFailure 401 "No session cookie found in the config file, cannot scrape favorites"

/-- `CoomerCrawler.favorites`: with no session credential, raise the
401 failure at once; otherwise attach the credential to the shared cookie jar,
fetch the favourites, clear the cookie, and spawn one child per favorited
artist. The cookie-clearing line sits after the fetch with no try/finally, so
a raising fetch skips it. -/
def favorites (env : CoomerEnv) (cookie0 : String) : FavOutcome :=
  if env.session == "" then
    { result := some AuthRequiredFailure, spawned := [], fetchCount := 0,
      finalCookie := cookie0 }
  else
    match env.favResponse with
    | .fail e =>
      { result := some e, spawned := [], fetchCount := 1, finalCookie := env.session }
    | .ok users =>
      { result := none,
        spawned := users.map (fun u => { service := u.service, id := u.id }),
        fetchCount := 1, finalCookie := "" }

/-- A file object of a post's JSON (`path` and `name`). -/
structure FileObj where
  path : String
  name : String
deriving DecidableEq

/-- A post of the profile listing JSON, with the fields
`handle_post_content` reads. -/
structure Post where
  content : String
  id : String
  title : String
  file : Option FileObj
  attachments : List FileObj
deriving DecidableEq

/-- A child ScrapeItem spawned for one file of a post:
`https://coomer.su/data{path}?f={name}`. -/
structure PostChild where
  linkPath : String
  query_f : String
deriving DecidableEq

/-- The link built for one file object. -/
def mkPostChild (f : FileObj) : PostChild :=
  { linkPath := "data" ++ f.path, query_f := f.name }

/-- `CoomerCrawler.handle_post_content`: skip the post entirely when its
content carries "#ad" and ads are ignored; otherwise spawn one child for the
primary file (when present) and one per attachment. -/
def handle_post_content (ignoreAds : Bool) (p : Post) : List PostChild :=
  if strContains p.content "#ad" && ignoreAds then []
  else
    (match p.file with
     | some f => [mkPostChild f]
     | none => []) ++ p.attachments.map mkPostChild

/-- The pagination loop of `CoomerCrawler.profile`: fetch the page at the
current offset, stop on an empty page, otherwise handle every post and
continue at offset + 50. `fuel` bounds the number of iterations; `none` means
the loop was still running when the fuel ran out. Returns the children
spawned and the number of pages fetched. -/
def profileLoop (ignoreAds : Bool) (fetch : Nat → List Post) (offset fuel : Nat) :
    Option (List PostChild × Nat) :=
  match fuel with
  | 0 => none
  | Nat.succ f =>
    let page := fetch offset
    if page.isEmpty then some ([], 1)
    else
      match profileLoop ignoreAds fetch (offset + 50) f with
      | none => none
      | some (cs, n) => some (((page.map (handle_post_content ignoreAds)).flatten ++ cs, n + 1))

/-- `CoomerCrawler.profile`: paginate from offset 0. -/
def profile (ignoreAds : Bool) (fetch : Nat → List Post) (fuel : Nat) :
    Option (List PostChild × Nat) :=
  profileLoop ignoreAds fetch 0 fuel

/-! ## Content hasher (`hash_manager.py`) -/

/-- Failure of `aiofiles.open` on a missing or unreadable path — the spec's
`FileError`. -/
inductive FileError where
  | fileNotFound (path : String)
deriving DecidableEq

/-- The incremental hash accumulator (`hashlib.blake2b()`): `update` absorbs
one chunk. The final digest is an arbitrary function `alg` of the absorbed
byte stream, passed in as a parameter — the algorithm is a substitutable
policy. -/
structure Hasher where
  absorbed : List Nat
deriving DecidableEq

/-- `hasher.update(filedata)`. -/
def Hasher.absorb (h : Hasher) (chunk : List Nat) : Hasher :=
  ⟨h.absorbed ++ chunk⟩

/-- `CHUNK_SIZE = 1024 * 1024` — 1 MiB reads. -/
def CHUNK_SIZE : Nat := 1024 * 1024

/-- Split a byte list into chunks of `n + 1` bytes (the last one possibly
shorter); `fuel` makes the recursion structural and suffices whenever it is at
least the list length. -/
def chunksOfFuel (n : Nat) : Nat → List Nat → List (List Nat)
  | _, [] => []
  | 0, bs => [bs]
  | Nat.succ f, b :: rest => (b :: rest.take n) :: chunksOfFuel n f (rest.drop n)

/-- The successive `fp.read(CHUNK_SIZE)` results for a file of the given
bytes. -/
def readChunks (bs : List Nat) : List (List Nat) :=
  chunksOfFuel (CHUNK_SIZE - 1) bs.length bs

/-- `os.path.join(os.getcwd(), filename)`. -/
def os_path_join (cwd p : String) : String :=
  if p.data.head? == some '/' then p
  else if cwd == "" || cwd.data.getLast? == some '/' then cwd ++ p
  else cwd ++ "/" ++ p

/-- `HashManager.hash_file`: join the path against the working directory, open
the file (a missing path fails with `FileError`), stream it in 1 MiB chunks
through the accumulator, and return the digest of everything absorbed. `fs`
maps a path to the bytes of the file stored there, `alg` is the digest
function. -/
def hash_file (alg : List Nat → String) (fs : String → Option (List Nat))
    (cwd fname : String) : Except FileError String :=
  let file_path := os_path_join cwd fname
  match fs file_path with
  | none => .error (.fileNotFound file_path)
  | some bytes =>
    let final := (readChunks bytes).foldl Hasher.absorb ⟨[]⟩
    .ok (alg final.absorbed)

/-! ## Concrete inputs used by witnesses -/

/-- A post spawning exactly one child (a primary file, no attachments). -/
def wPost : Post := ⟨"", "i", "t", some ⟨"/p", "n"⟩, []⟩

/-- A simulated profile listing with pages of sizes 50, 50, 0. -/
def wFetch (o : Nat) : List Post :=
  if o == 0 || o == 50 then List.replicate 50 wPost else []

/-- An incomplete (`completed = 0`) row under domain `bunkr`. -/
def bunkrIncompleteRow : MediaRow :=
  ⟨"bunkr", "/f", "r", none, "dl", "f", "f", 0, none, none, none⟩

/-- A ledger holding one completed row under domain `bunkr`. -/
def wBunkrState : HistoryState :=
  ⟨[⟨"bunkr", "/f", "r", none, "dl", "f", "f", 1, none, none, none⟩], false⟩

/-- A media item whose ledger key is ("d", "/p"). -/
def wMediaC1 : MediaItem := ⟨⟨"/p", "p"⟩, "r", some "al", "dl", some "f", "o"⟩

/-- A ledger holding one incomplete row under key ("d", "/p"),
ignore-history off. -/
def wStateC1 : HistoryState :=
  ⟨[⟨"d", "/p", "r", none, "dl", "f", "o", 0, none, none, none⟩], false⟩

/-- An intervening `insert_incompleted` call with the same key. -/
def wOpsC1 : List LedgerOp := [LedgerOp.insertIncompleted "d" wMediaC1 5]

/-! ## Generic list lemmas -/

theorem countB_append {α : Type} (p : α → Bool) (l l' : List α) :
    countB p (l ++ l') = countB p l + countB p l' := by
  induction l with
  | nil => simp [countB]
  | cons a t ih => simp [countB, ih]; omega

theorem countB_map {α β : Type} (f : α → β) (q : β → Bool) (l : List α) :
    countB q (l.map f) = countB (fun x => q (f x)) l := by
  induction l with
  | nil => rfl
  | cons a t ih => simp [countB, ih]

theorem countB_congr {α : Type} {p q : α → Bool} {l : List α}
    (h : ∀ x ∈ l, p x = q x) : countB p l = countB q l := by
  induction l with
  | nil => rfl
  | cons a t ih =>
    simp only [countB, h a (List.mem_cons_self a t),
      ih (fun x hx => h x (List.mem_cons_of_mem a hx))]

theorem countB_filter_le {α : Type} (p q : α → Bool) (l : List α) :
    countB p (l.filter q) ≤ countB p l := by
  induction l with
  | nil => simp [countB]
  | cons a t ih =>
    by_cases hq : q a
    · simp only [List.filter_cons, hq, if_true, countB]
      omega
    · simp only [List.filter_cons, hq, Bool.false_eq_true, if_false, countB]
      omega

theorem countB_eq_zero {α : Type} {p : α → Bool} {l : List α}
    (h : ∀ x ∈ l, p x = false) : countB p l = 0 := by
  induction l with
  | nil => rfl
  | cons a t ih =>
    simp [countB, h a (List.mem_cons_self a t),
      ih (fun x hx => h x (List.mem_cons_of_mem a hx))]

theorem countB_pos_of_mem {α : Type} {p : α → Bool} {l : List α} {x : α}
    (hx : x ∈ l) (hp : p x = true) : 0 < countB p l := by
  induction l with
  | nil => cases hx
  | cons a t ih =>
    rcases List.mem_cons.mp hx with h | h
    · subst h; simp [countB, hp]
    · simp only [countB]
      have := ih h
      omega

theorem countB_le_one_of_key {α κ : Type} (key : α → κ) (q : α → Bool) (k : κ)
    {l : List α} (hq : ∀ x, q x = true → key x = k)
    (hp : l.Pairwise (fun a b => key a ≠ key b)) : countB q l ≤ 1 := by
  induction l with
  | nil => simp [countB]
  | cons a t ih =>
    rcases List.pairwise_cons.mp hp with ⟨ha, ht⟩
    by_cases hqa : q a
    · have hz : countB q t = 0 := countB_eq_zero (fun x hx => by
        by_contra hcon
        exact ha x hx ((hq a hqa).trans (hq x (Bool.not_eq_false _ ▸ hcon)).symm))
      simp [countB, hqa, hz]
    · simp only [countB, hqa, Bool.false_eq_true, if_false]
      have := ih ht
      omega

theorem countB_eq_one_of_key {α κ : Type} (key : α → κ) (q : α → Bool) (k : κ)
    {l : List α} (hq : ∀ x, q x = true → key x = k)
    (hp : l.Pairwise (fun a b => key a ≠ key b))
    (he : ∃ x ∈ l, q x = true) : countB q l = 1 := by
  obtain ⟨x, hx, hqx⟩ := he
  have h1 := countB_le_one_of_key key q k hq hp
  have h2 := countB_pos_of_mem hx hqx
  omega

theorem filter_eq_self_of {α : Type} {p : α → Bool} {l : List α}
    (h : ∀ a ∈ l, p a = true) : l.filter p = l := by
  induction l with
  | nil => rfl
  | cons a t ih =>
    simp only [List.filter_cons, h a (List.mem_cons_self a t), if_true,
      ih (fun x hx => h x (List.mem_cons_of_mem a hx))]

theorem filter_eq_nil_of {α : Type} {p : α → Bool} {l : List α}
    (h : ∀ a ∈ l, p a = false) : l.filter p = [] := by
  induction l with
  | nil => rfl
  | cons a t ih =>
    simp only [List.filter_cons, h a (List.mem_cons_self a t), Bool.false_eq_true, if_false,
      ih (fun x hx => h x (List.mem_cons_of_mem a hx))]

theorem map_eq_self_of {α : Type} {f : α → α} {l : List α}
    (h : ∀ a ∈ l, f a = a) : l.map f = l := by
  induction l with
  | nil => rfl
  | cons a t ih =>
    simp only [List.map_cons, h a (List.mem_cons_self a t),
      ih (fun x hx => h x (List.mem_cons_of_mem a hx))]

theorem any_eq_false_of {α : Type} {p : α → Bool} {l : List α}
    (h : ∀ a ∈ l, p a = false) : l.any p = false := by
  rw [List.any_eq_false]
  intro x hx
  simp [h x hx]

/-! ## Claim C9 — `check_filename_exists` always returns False -/

/-- C9: for every database state and every filename string,
`check_filename_exists` returns False — even when a media record with that
`download_filename` exists — because the fetched row (a tuple) is compared
against the integer 1. -/
theorem c9_check_filename_exists_always_false (s : HistoryState) (filename : String) :
    check_filename_exists filename s = false := by
  unfold check_filename_exists
  by_cases h : s.rows.any (fun r => r.download_filename == filename) <;> simp [h]

/-! ## Claim C5 — favorites auth gating -/

/-- C5: invoking the favorites flow with no session credential configured
fails with the auth-required failure (`ScrapeFailure(401)` in the code),
spawns zero children, and issues no outbound fetch. -/
theorem c5_favorites_auth_gating (env : CoomerEnv) (cookie0 : String)
    (h : env.session = "") :
    (favorites env cookie0).result = some AuthRequiredFailure ∧
    (favorites env cookie0).spawned = [] ∧
    (favorites env cookie0).fetchCount = 0 := by
  simp [favorites, h]

theorem c5_witness :
    (favorites ⟨"", .ok [⟨"i", "n", "svc"⟩]⟩ "c").result = some AuthRequiredFailure ∧
    (favorites ⟨"", .ok [⟨"i", "n", "svc"⟩]⟩ "c").spawned = [] ∧
    (favorites ⟨"", .ok [⟨"i", "n", "svc"⟩]⟩ "c").fetchCount = 0 :=
  c5_favorites_auth_gating ⟨"", .ok [⟨"i", "n", "svc"⟩]⟩ "c" rfl

/-! ## Claim C6 — favorites cookie scope -/

/-- C6 counterexample: with a credential configured and a raising favourites
fetch, the session cookie is NOT restored to empty — the credential stays
attached to the shared client after the call. -/
theorem c6_counterexample :
    (favorites ⟨"tok", .fail (.scrapeFailure 500 "boom")⟩ "").finalCookie = "tok" ∧
    ("tok" : String) ≠ "" := by
  exact ⟨rfl, by decide⟩

/-- C6 (amended): when a session credential is configured and the favourites
fetch returns normally, the shared client's session cookie is restored to
empty by the time the call completes. (When the fetch raises, the credential
remains attached.) -/
theorem c6_favorites_cookie_restored (env : CoomerEnv) (cookie0 : String)
    (users : List FavUser) (hs : env.session ≠ "") (hr : env.favResponse = .ok users) :
    (favorites env cookie0).finalCookie = "" := by
  simp [favorites, hr, hs]

theorem c6_witness : (favorites ⟨"s", .ok [⟨"i", "n", "svc"⟩]⟩ "c").finalCookie = "" :=
  c6_favorites_cookie_restored ⟨"s", .ok [⟨"i", "n", "svc"⟩]⟩ "c" [⟨"i", "n", "svc"⟩]
    (by decide) rfl

/-! ## String splitting lemmas and claim C10 — `get_db_path` -/

theorem beforeFirstL_eq_of_not_contains {s pat : List Char}
    (h : containsL s pat = false) : beforeFirstL s pat = s := by
  induction s with
  | nil => rfl
  | cons c rest ih =>
    simp only [containsL, Bool.or_eq_false_iff] at h
    obtain ⟨h1, h2⟩ := h
    simp [beforeFirstL, h1, ih h2]

theorem beforeFirstL_isPre (s pat : List Char) : beforeFirstL s pat <+: s := by
  induction s with
  | nil => simp [beforeFirstL]
  | cons c rest ih =>
    simp only [beforeFirstL]
    by_cases h : pat.isPrefixOf (c :: rest)
    · simp [h]
    · rw [if_neg h]
      obtain ⟨t, ht⟩ := ih
      exact ⟨t, by rw [List.cons_append, ht]⟩

theorem beforeFirstL_spec {s pat : List Char} (hne : pat ≠ [])
    (h : containsL s pat = true) :
    ∃ suf, s = beforeFirstL s pat ++ pat ++ suf ∧
      containsL (beforeFirstL s pat) pat = false := by
  induction s with
  | nil =>
    simp only [containsL, List.isEmpty_iff] at h
    exact absurd h hne
  | cons c rest ih =>
    by_cases hp : pat.isPrefixOf (c :: rest)
    · obtain ⟨suf, hsuf⟩ := List.isPrefixOf_iff_prefix.mp hp
      refine ⟨suf, ?_, ?_⟩
      · simp [beforeFirstL, hp, ← hsuf]
      · simp only [beforeFirstL, hp, if_true, containsL, List.isEmpty_iff]
        simp [hne]
    · have hrest : containsL rest pat = true := by
        simp only [containsL, Bool.or_eq_true] at h
        rcases h with h | h
        · exact absurd h hp
        · exact h
      obtain ⟨suf, hs, hc⟩ := ih hrest
      simp only [List.append_assoc] at hs
      refine ⟨suf, ?_, ?_⟩
      · simp only [beforeFirstL]
        rw [if_neg hp]
        simp only [List.cons_append, List.append_assoc]
        exact congrArg (List.cons c) hs
      · simp only [beforeFirstL, hp, if_false]
        simp only [containsL, Bool.or_eq_false_iff]
        refine ⟨?_, hc⟩
        cases hcon : pat.isPrefixOf (c :: beforeFirstL rest pat) with
        | false => rfl
        | true =>
          have h1 : pat <+: c :: beforeFirstL rest pat :=
            List.isPrefixOf_iff_prefix.mp hcon
          have h2 : c :: beforeFirstL rest pat <+: c :: rest := by
            obtain ⟨t, ht⟩ := beforeFirstL_isPre rest pat
            exact ⟨t, by rw [List.cons_append, ht]⟩
          exact absurd (List.isPrefixOf_iff_prefix.mpr (h1.trans h2)) hp

/-- C10 counterexample: for a referer containing both "e-hentai" and
"mediafire" the mediafire branch overrides, so `get_db_path` does not return
the keystamp-free path with its final character removed. -/
theorem c10_counterexample :
    strContains "e-hentai mediafire" "e-hentai" = true ∧
    strContains "/a/b" "keystamp" = false ∧
    get_db_path ⟨"/a/b", "b"⟩ "e-hentai mediafire" ≠ pyDropLast "/a/b" := by
  decide

/-- C10 (amended): for every URL and every referer string containing
"e-hentai" but not "mediafire": when the URL's path contains no "keystamp"
substring, `get_db_path` returns the path with its final character removed
(which differs from the unchanged path whenever the path is nonempty); when
the path does contain "keystamp", it returns the portion of the path before
the first "keystamp" with the single preceding character also removed. -/
theorem c10_get_db_path_ehentai (url : UrlM) (referer : String)
    (h1 : strContains referer "e-hentai" = true)
    (h2 : strContains referer "mediafire" = false) :
    (strContains url.path "keystamp" = false →
      (get_db_path url referer).data = url.path.data.dropLast ∧
      (url.path ≠ "" → get_db_path url referer ≠ url.path)) ∧
    (strContains url.path "keystamp" = true →
      ∃ pre suf : List Char, url.path.data = pre ++ "keystamp".data ++ suf ∧
        containsL pre "keystamp".data = false ∧
        (get_db_path url referer).data = pre.dropLast) := by
  have hne : referer ≠ "" := by
    intro he
    subst he
    exact absurd h1 (by decide)
  have hbne : (referer != "") = true := by simp [hne]
  have hval : get_db_path url referer = pyDropLast (strSplitHead url.path "keystamp") := by
    unfold get_db_path
    simp [hbne, h1, h2]
  constructor
  · intro hno
    have hbf : beforeFirstL url.path.data "keystamp".data = url.path.data :=
      beforeFirstL_eq_of_not_contains hno
    have hdata : (get_db_path url referer).data = url.path.data.dropLast := by
      rw [hval]
      simp [pyDropLast, strSplitHead, hbf]
    refine ⟨hdata, ?_⟩
    intro hpne heq
    have hlne : url.path.data ≠ [] := by
      intro hnil
      exact hpne (String.ext (hnil.trans (by decide)))
    have hlen : url.path.data.dropLast.length = url.path.data.length - 1 :=
      List.length_dropLast url.path.data
    have : url.path.data.dropLast = url.path.data := by rw [← hdata, heq]
    have hpos : 0 < url.path.data.length := List.length_pos.mpr hlne
    have := congrArg List.length this
    omega
  · intro hyes
    obtain ⟨suf, hs, hc⟩ :=
      @beforeFirstL_spec url.path.data "keystamp".data (by decide) hyes
    refine ⟨beforeFirstL url.path.data "keystamp".data, suf, hs, hc, ?_⟩
    rw [hval]
    simp [pyDropLast, strSplitHead]

theorem c10_witness :
    (strContains (UrlM.path ⟨"/ab", "b"⟩) "keystamp" = false →
      (get_db_path ⟨"/ab", "b"⟩ "e-hentai").data = (UrlM.path ⟨"/ab", "b"⟩).data.dropLast ∧
      (UrlM.path ⟨"/ab", "b"⟩ ≠ "" → get_db_path ⟨"/ab", "b"⟩ "e-hentai" ≠ UrlM.path ⟨"/ab", "b"⟩)) ∧
    (strContains (UrlM.path ⟨"/ab", "b"⟩) "keystamp" = true →
      ∃ pre suf : List Char, (UrlM.path ⟨"/ab", "b"⟩).data = pre ++ "keystamp".data ++ suf ∧
        containsL pre "keystamp".data = false ∧
        (get_db_path ⟨"/ab", "b"⟩ "e-hentai").data = pre.dropLast) :=
  c10_get_db_path_ehentai ⟨"/ab", "b"⟩ "e-hentai" (by decide) (by decide)

/-! ## Claim C8 — hash determinism -/

theorem chunksOfFuel_flatten (n : Nat) : ∀ (fuel : Nat) (bs : List Nat),
    bs.length ≤ fuel → (chunksOfFuel n fuel bs).flatten = bs := by
  intro fuel
  induction fuel with
  | zero =>
    intro bs h
    have hb : bs = [] := List.eq_nil_of_length_eq_zero (Nat.le_zero.mp h)
    subst hb
    rfl
  | succ f ih =>
    intro bs h
    match bs with
    | [] => rfl
    | b :: rest =>
      simp only [chunksOfFuel, List.flatten_cons]
      rw [ih (rest.drop n) (by simp only [List.length_drop]; simp at h; omega)]
      simp [List.take_append_drop]

theorem foldl_absorb (chunks : List (List Nat)) : ∀ acc : List Nat,
    chunks.foldl Hasher.absorb ⟨acc⟩ = ⟨acc ++ chunks.flatten⟩ := by
  induction chunks with
  | nil => intro acc; simp
  | cons c t ih =>
    intro acc
    simp only [List.foldl_cons, Hasher.absorb]
    rw [ih (acc ++ c)]
    simp

/-- C8: `hash_file` on two paths whose files hold identical byte content
returns identical digests (both are the digest of the full content — no
partial digest), and on a path with no file it fails with `FileError` rather
than returning a digest. -/
theorem c8_hash_determinism (alg : List Nat → String) (fs : String → Option (List Nat))
    (cwd p1 p2 q : String) (content : List Nat)
    (h1 : fs (os_path_join cwd p1) = some content)
    (h2 : fs (os_path_join cwd p2) = some content)
    (hq : fs (os_path_join cwd q) = none) :
    hash_file alg fs cwd p1 = .ok (alg content) ∧
    hash_file alg fs cwd p1 = hash_file alg fs cwd p2 ∧
    hash_file alg fs cwd q = .error (.fileNotFound (os_path_join cwd q)) := by
  have hok : ∀ p : String, fs (os_path_join cwd p) = some content →
      hash_file alg fs cwd p = .ok (alg content) := by
    intro p hp
    simp only [hash_file, readChunks, hp]
    rw [foldl_absorb, chunksOfFuel_flatten _ _ _ (Nat.le_refl _)]
    simp
  refine ⟨hok p1 h1, (hok p1 h1).trans (hok p2 h2).symm, ?_⟩
  simp only [hash_file, hq]

theorem c8_witness :
    hash_file (fun bs => toString bs.sum)
      (fun p => if p = "/w/a" then some [7, 8] else if p = "/w/b" then some [7, 8] else none)
      "/w" "a" = .ok ((fun bs : List Nat => toString bs.sum) [7, 8]) ∧
    hash_file (fun bs => toString bs.sum)
      (fun p => if p = "/w/a" then some [7, 8] else if p = "/w/b" then some [7, 8] else none)
      "/w" "a" =
    hash_file (fun bs => toString bs.sum)
      (fun p => if p = "/w/a" then some [7, 8] else if p = "/w/b" then some [7, 8] else none)
      "/w" "b" ∧
    hash_file (fun bs => toString bs.sum)
      (fun p => if p = "/w/a" then some [7, 8] else if p = "/w/b" then some [7, 8] else none)
      "/w" "c" = .error (.fileNotFound (os_path_join "/w" "c")) :=
  c8_hash_determinism (fun bs => toString bs.sum)
    (fun p => if p = "/w/a" then some [7, 8] else if p = "/w/b" then some [7, 8] else none)
    "/w" "a" "b" "c" [7, 8] rfl rfl rfl

/-! ## Claim C7 — pagination termination -/

theorem profileLoop_step (ia : Bool) (fetch : Nat → List Post) (offset f : Nat) :
    profileLoop ia fetch offset (Nat.succ f) =
      (if (fetch offset).isEmpty then some ([], 1)
       else match profileLoop ia fetch (offset + 50) f with
         | none => none
         | some (cs, n) =>
             some (((fetch offset).map (handle_post_content ia)).flatten ++ cs, n + 1)) := rfl

theorem flatten_map_length_one {h : Post → List PostChild} {l : List Post}
    (hl : ∀ p ∈ l, (h p).length = 1) : ((l.map h).flatten).length = l.length := by
  induction l with
  | nil => rfl
  | cons a t ih =>
    simp only [List.map_cons, List.flatten_cons, List.length_append,
      hl a (List.mem_cons_self a t), ih (fun p hp => hl p (List.mem_cons_of_mem a hp)),
      List.length_cons]
    omega

/-- C7: a profile listing whose pages at offsets 0, 50, 100 hold 50, 50 and 0
posts, each post spawning one child, makes the profile flow spawn exactly 100
children, fetch exactly 3 pages (stopping after the empty one), and
terminate for any loop fuel of at least 3. -/
theorem c7_pagination_termination (ia : Bool) (fetch : Nat → List Post) (fuel : Nat)
    (h0 : (fetch 0).length = 50) (h50 : (fetch 50).length = 50) (h100 : fetch 100 = [])
    (hc : ∀ p, p ∈ fetch 0 ∨ p ∈ fetch 50 → (handle_post_content ia p).length = 1)
    (hf : 3 ≤ fuel) :
    ∃ cs : List PostChild, profile ia fetch fuel = some (cs, 3) ∧ cs.length = 100 := by
  have hfe : fuel = Nat.succ (Nat.succ (Nat.succ (fuel - 3))) := by omega
  have hne0 : (fetch 0).isEmpty = false := by
    cases hv : fetch 0 with
    | nil => rw [hv] at h0; simp at h0
    | cons a t => simp
  have hne50 : (fetch 50).isEmpty = false := by
    cases hv : fetch 50 with
    | nil => rw [hv] at h50; simp at h50
    | cons a t => simp
  have hrun : profile ia fetch fuel =
      some (((fetch 0).map (handle_post_content ia)).flatten ++
        ((fetch 50).map (handle_post_content ia)).flatten, 3) := by
    rw [profile, hfe, profileLoop_step, profileLoop_step, profileLoop_step]
    norm_num [hne0, hne50, h100]
  refine ⟨_, hrun, ?_⟩
  rw [List.length_append,
    flatten_map_length_one (fun p hp => hc p (Or.inl hp)),
    flatten_map_length_one (fun p hp => hc p (Or.inr hp)), h0, h50]

theorem c7_witness :
    ∃ cs : List PostChild, profile false wFetch 3 = some (cs, 3) ∧ cs.length = 100 :=
  c7_pagination_termination false wFetch 3 rfl rfl rfl
    (fun p hp => by
      have hrep : p = wPost := by
        rcases hp with h | h
        · exact List.eq_of_mem_replicate h
        · exact List.eq_of_mem_replicate h
      subst hrep
      rfl)
    (by omega)

/-! ## Claim C2 — `fix_primary_keys` migration convergence -/

theorem sameGroup_iff {a b : LegacyRow} : sameGroup a b = true ↔ legacyKey a = legacyKey b := by
  simp [sameGroup, legacyKey, Prod.ext_iff, and_assoc]

theorem dedupAux_subset (seen l : List LegacyRow) :
    ∀ x ∈ dedupAux seen l, x ∈ l := by
  induction l generalizing seen with
  | nil => intro x hx; cases hx
  | cons a t ih =>
    intro x hx
    simp only [dedupAux] at hx
    by_cases hs : seen.any (fun y => sameGroup a y)
    · rw [if_pos hs] at hx
      exact List.mem_cons_of_mem a (ih seen x hx)
    · rw [if_neg hs] at hx
      rcases List.mem_cons.mp hx with h | h
      · exact h ▸ List.mem_cons_self a t
      · exact List.mem_cons_of_mem a (ih (a :: seen) x h)

theorem dedupAux_covers (l : List LegacyRow) : ∀ seen : List LegacyRow, ∀ r ∈ l,
    (∀ s ∈ seen, legacyKey s ≠ legacyKey r) →
    ∃ x ∈ dedupAux seen l, legacyKey x = legacyKey r := by
  induction l with
  | nil => intro seen r hr; cases hr
  | cons a t ih =>
    intro seen r hr hseen
    by_cases hs : seen.any (fun y => sameGroup a y)
    · simp only [dedupAux, if_pos hs]
      rcases List.mem_cons.mp hr with h | h
      · subst h
        obtain ⟨y, hy, hg⟩ := List.any_eq_true.mp hs
        exact absurd (sameGroup_iff.mp hg).symm (hseen y hy)
      · exact ih seen r h hseen
    · simp only [dedupAux, if_neg hs]
      by_cases hk : legacyKey a = legacyKey r
      · exact ⟨a, List.mem_cons_self _ _, hk⟩
      · rcases List.mem_cons.mp hr with h | h
        · exact absurd (congrArg legacyKey h).symm hk
        · obtain ⟨x, hx, hkx⟩ := ih (a :: seen) r h (by
            intro s hsm
            rcases List.mem_cons.mp hsm with h1 | h1
            · exact h1 ▸ hk
            · exact hseen s h1)
          exact ⟨x, List.mem_cons_of_mem a hx, hkx⟩

theorem dedupAux_seen_disjoint (l : List LegacyRow) : ∀ seen : List LegacyRow,
    ∀ x ∈ dedupAux seen l, ∀ s ∈ seen, legacyKey x ≠ legacyKey s := by
  induction l with
  | nil => intro seen x hx; cases hx
  | cons a t ih =>
    intro seen x hx s hs
    by_cases hany : seen.any (fun y => sameGroup a y)
    · rw [show dedupAux seen (a :: t) = dedupAux seen t by simp [dedupAux, hany]] at hx
      exact ih seen x hx s hs
    · rw [show dedupAux seen (a :: t) = a :: dedupAux (a :: seen) t by
        simp [dedupAux, hany]] at hx
      rcases List.mem_cons.mp hx with h | h
      · subst h
        intro hk
        have := List.any_eq_false.mp (Bool.not_eq_true _ ▸ hany) s hs
        simp [sameGroup_iff.mpr hk] at this
      · exact ih (a :: seen) x h s (List.mem_cons_of_mem a hs)

theorem dedupAux_pairwise (l : List LegacyRow) : ∀ seen : List LegacyRow,
    (dedupAux seen l).Pairwise (fun a b => legacyKey a ≠ legacyKey b) := by
  induction l with
  | nil => intro seen; exact List.Pairwise.nil
  | cons a t ih =>
    intro seen
    by_cases hany : seen.any (fun y => sameGroup a y)
    · simpa [dedupAux, hany] using ih seen
    · rw [show dedupAux seen (a :: t) = a :: dedupAux (a :: seen) t by
        simp [dedupAux, hany]]
      refine List.Pairwise.cons ?_ (ih (a :: seen))
      intro y hy
      have := dedupAux_seen_disjoint t (a :: seen) y hy a (List.mem_cons_self a seen)
      exact fun h => this h.symm

theorem insertAllPk_ok (l : List LegacyRow) : ∀ acc : List LegacyRow,
    (∀ a ∈ acc, ∀ b ∈ l, samePk a b = false) →
    l.Pairwise (fun a b => samePk a b = false) →
    insertAllPk acc l = .ok (acc ++ l) := by
  induction l with
  | nil => intro acc _ _; simp [insertAllPk]
  | cons r rest ih =>
    intro acc hacc hp
    rcases List.pairwise_cons.mp hp with ⟨hr, hrest⟩
    have hany : acc.any (fun x => samePk x r) = false :=
      any_eq_false_of (fun a ha => hacc a ha r (List.mem_cons_self r rest))
    simp only [insertAllPk, hany, Bool.false_eq_true, if_false]
    rw [ih (acc ++ [r]) ?_ hrest]
    · simp
    · intro a ha b hb
      rcases List.mem_append.mp ha with h | h
      · exact hacc a h b (List.mem_cons_of_mem r hb)
      · rw [List.mem_singleton.mp h]
        exact hr b hb

/-- C2 counterexample: a legacy table containing a duplicated
(domain, url_path, original_filename) row AND a third row sharing
(domain, url_path) with a different original_filename: the copy into the
corrected table collides on the new primary key, so `fix_primary_keys` aborts
with IntegrityError instead of leaving a rebuilt table. -/
theorem c2_counterexample :
    fix_primary_keys ⟨false, [⟨"d", "p", "r1", "dl", "f", "o1", 0⟩,
      ⟨"d", "p", "r1", "dl", "f", "o1", 0⟩, ⟨"d", "p", "r2", "dl", "f", "o2", 0⟩]⟩
      = .error .integrityError := rfl

/-- C2 (amended): provided any two rows sharing (domain, url_path) also share
original_filename, `fix_primary_keys` on a legacy-shaped table yields a table
with the corrected primary-key shape holding exactly one row per
(domain, url_path, original_filename) group, each a representative from the
original table; on a table already correctly constrained it makes no
change. -/
theorem c2_fix_primary_keys_converges (db : MediaDB) (hc : pkCompatible db.rows) :
    (db.firstColPk = true → fix_primary_keys db = .ok db) ∧
    (db.firstColPk = false → ∃ db' : MediaDB,
      fix_primary_keys db = .ok db' ∧ db'.firstColPk = true ∧
      (∀ x ∈ db'.rows, x ∈ db.rows) ∧
      (∀ r ∈ db.rows, countB (fun x => sameGroup x r) db'.rows = 1)) := by
  constructor
  · intro h
    simp [fix_primary_keys, h]
  · intro h
    have hp3 := dedupAux_pairwise db.rows []
    have hsub := dedupAux_subset [] db.rows
    have hpk : (dedupAux [] db.rows).Pairwise (fun a b => samePk a b = false) := by
      refine List.Pairwise.imp_of_mem (fun {a b} ha hb hR => ?_) hp3
      cases hsp : samePk a b with
      | false => rfl
      | true =>
        have hd : a.domain = b.domain ∧ a.url_path = b.url_path := by
          simpa [samePk] using hsp
        have hof : a.original_filename = b.original_filename :=
          hc a (hsub a ha) b (hsub b hb) hd.1 hd.2
        exact absurd (by simp [legacyKey, hd.1, hd.2, hof]) hR
    have hins : insertAllPk [] (dedupByKey db.rows) = .ok (dedupAux [] db.rows) := by
      have := insertAllPk_ok (dedupAux [] db.rows) []
        (fun a ha => absurd ha (List.not_mem_nil a)) hpk
      simpa [dedupByKey] using this
    refine ⟨⟨true, dedupAux [] db.rows⟩, ?_, rfl, hsub, ?_⟩
    · simp [fix_primary_keys, h, hins]
    · intro r hr
      refine countB_eq_one_of_key legacyKey _ (legacyKey r) ?_ hp3 ?_
      · intro x hx
        exact sameGroup_iff.mp hx
      · obtain ⟨x, hx, hk⟩ := dedupAux_covers db.rows [] r hr
          (fun s hs => absurd hs (List.not_mem_nil s))
        exact ⟨x, hx, sameGroup_iff.mpr hk⟩

theorem c2_witness :
    ((MediaDB.firstColPk ⟨false, [⟨"d", "p", "r", "dl", "f", "o", 0⟩,
        ⟨"d", "p", "r", "dl", "f", "o", 0⟩]⟩) = true →
      fix_primary_keys ⟨false, [⟨"d", "p", "r", "dl", "f", "o", 0⟩,
        ⟨"d", "p", "r", "dl", "f", "o", 0⟩]⟩ = .ok ⟨false, [⟨"d", "p", "r", "dl", "f", "o", 0⟩,
        ⟨"d", "p", "r", "dl", "f", "o", 0⟩]⟩) ∧
    ((MediaDB.firstColPk ⟨false, [⟨"d", "p", "r", "dl", "f", "o", 0⟩,
        ⟨"d", "p", "r", "dl", "f", "o", 0⟩]⟩) = false → ∃ db' : MediaDB,
      fix_primary_keys ⟨false, [⟨"d", "p", "r", "dl", "f", "o", 0⟩,
        ⟨"d", "p", "r", "dl", "f", "o", 0⟩]⟩ = .ok db' ∧ db'.firstColPk = true ∧
      (∀ x ∈ db'.rows, x ∈ (MediaDB.rows ⟨false, [⟨"d", "p", "r", "dl", "f", "o", 0⟩,
        ⟨"d", "p", "r", "dl", "f", "o", 0⟩]⟩)) ∧
      (∀ r ∈ (MediaDB.rows ⟨false, [⟨"d", "p", "r", "dl", "f", "o", 0⟩,
        ⟨"d", "p", "r", "dl", "f", "o", 0⟩]⟩),
        countB (fun x => sameGroup x r) db'.rows = 1)) :=
  c2_fix_primary_keys_converges ⟨false, [⟨"d", "p", "r", "dl", "f", "o", 0⟩,
    ⟨"d", "p", "r", "dl", "f", "o", 0⟩]⟩ (by unfold pkCompatible; decide)

/-! ## Claim C4 — the bunkr fix pass -/

theorem foldl_bunkr_preserve (entries : List MediaRow) : ∀ (acc : List MediaRow) (x : MediaRow),
    x ∈ acc → (∀ e ∈ entries, x.url_path ≠ e.url_path) →
    x ∈ entries.foldl bunkrStep acc := by
  induction entries with
  | nil => intro acc x hx _; exact hx
  | cons e t ih =>
    intro acc x hx hne
    simp only [List.foldl_cons]
    refine ih (bunkrStep acc e) x ?_ (fun e2 he2 => hne e2 (List.mem_cons_of_mem e he2))
    unfold bunkrStep
    refine List.mem_append.mpr (Or.inl (List.mem_filter.mpr ⟨hx, ?_⟩))
    simp [keyMatch, hne e (List.mem_cons_self e t)]

theorem foldl_bunkr_mem (entries : List MediaRow) : ∀ acc : List MediaRow,
    entries.Pairwise (fun a b => a.url_path ≠ b.url_path) →
    ∀ e ∈ entries, { e with domain := "bunkrr" } ∈ entries.foldl bunkrStep acc := by
  induction entries with
  | nil => intro acc _ e he; cases he
  | cons a t ih =>
    intro acc hp e he
    rcases List.pairwise_cons.mp hp with ⟨ha, ht⟩
    simp only [List.foldl_cons]
    rcases List.mem_cons.mp he with h | h
    · subst h
      refine foldl_bunkr_preserve t (bunkrStep acc e) _ ?_ ?_
      · exact List.mem_append.mpr (Or.inr (List.mem_singleton.mpr rfl))
      · intro e2 he2
        exact ha e2 he2
    · exact ih (bunkrStep acc a) ht e h

theorem fix_bunkr_no_bunkr (s : HistoryState) :
    ∀ r ∈ (fix_bunkr_v4_entries s).rows, r.domain ≠ "bunkr" := by
  intro r hr
  simp only [fix_bunkr_v4_entries] at hr
  have h := (List.mem_filter.mp hr).2
  simpa using h

/-- C4 counterexample: an incomplete (`completed = 0`) row under domain
`bunkr` is deleted by the pass without any copy appearing under `bunkrr` —
so not every row that was under `bunkr` exists under `bunkrr` afterward. -/
theorem c4_counterexample :
    bunkrIncompleteRow.domain = "bunkr" ∧
    (fix_bunkr_v4_entries ⟨[bunkrIncompleteRow], false⟩).rows = [] ∧
    ¬ { bunkrIncompleteRow with domain := "bunkrr" } ∈
        (fix_bunkr_v4_entries ⟨[bunkrIncompleteRow], false⟩).rows := by
  decide

/-- C4 (amended): on a table satisfying the primary-key constraint, after
`fix_bunkr_v4_entries` no rows remain under domain `bunkr`, every COMPLETED
(`completed = 1`) row that was under `bunkr` before the pass exists under
domain `bunkrr` afterward, and running the pass a second time changes
nothing. -/
theorem c4_fix_bunkr_v4 (s : HistoryState) (hu : PKUnique s.rows) :
    (∀ r ∈ (fix_bunkr_v4_entries s).rows, r.domain ≠ "bunkr") ∧
    (∀ r ∈ s.rows, r.domain = "bunkr" → r.completed = 1 →
      { r with domain := "bunkrr" } ∈ (fix_bunkr_v4_entries s).rows) ∧
    fix_bunkr_v4_entries (fix_bunkr_v4_entries s) = fix_bunkr_v4_entries s := by
  refine ⟨fix_bunkr_no_bunkr s, ?_, ?_⟩
  · intro r hr hd hc
    simp only [fix_bunkr_v4_entries]
    refine List.mem_filter.mpr ⟨?_, by simp⟩
    have hentry : r ∈ s.rows.filter (fun x => x.domain == "bunkr" && x.completed == 1) :=
      List.mem_filter.mpr ⟨hr, by simp [hd, hc]⟩
    have hpw : (s.rows.filter (fun x => x.domain == "bunkr" && x.completed == 1)).Pairwise
        (fun a b => a.url_path ≠ b.url_path) := by
      have hsub : (s.rows.filter (fun x => x.domain == "bunkr" && x.completed == 1)).Pairwise
          (fun a b => rowKey a ≠ rowKey b) :=
        List.Pairwise.sublist (List.filter_sublist s.rows) hu
      refine List.Pairwise.imp_of_mem (fun {a b} ha hb hR => ?_) hsub
      have hda : a.domain = "bunkr" := by
        have h := (List.mem_filter.mp ha).2
        simp at h
        exact h.1
      have hdb : b.domain = "bunkr" := by
        have h := (List.mem_filter.mp hb).2
        simp at h
        exact h.1
      intro hpp
      exact hR (by simp [rowKey, hda, hdb, hpp])
    exact foldl_bunkr_mem _ s.rows hpw r hentry
  · have hno := fix_bunkr_no_bunkr s
    have hent : (fix_bunkr_v4_entries s).rows.filter
        (fun r => r.domain == "bunkr" && r.completed == 1) = [] :=
      filter_eq_nil_of (fun r hr => by simp [hno r hr])
    have hfil : (fix_bunkr_v4_entries s).rows.filter (fun r => !(r.domain == "bunkr"))
        = (fix_bunkr_v4_entries s).rows :=
      filter_eq_self_of (fun r hr => by simp [hno r hr])
    conv_lhs => rw [fix_bunkr_v4_entries]
    simp only [hent, List.foldl_nil, hfil]

theorem c4_witness :
    (∀ r ∈ (fix_bunkr_v4_entries wBunkrState).rows, r.domain ≠ "bunkr") ∧
    (∀ r ∈ wBunkrState.rows, r.domain = "bunkr" → r.completed = 1 →
      { r with domain := "bunkrr" } ∈ (fix_bunkr_v4_entries wBunkrState).rows) ∧
    fix_bunkr_v4_entries (fix_bunkr_v4_entries wBunkrState) = fix_bunkr_v4_entries wBunkrState :=
  c4_fix_bunkr_v4 wBunkrState (by unfold PKUnique wBunkrState; simp)

/-! ## Claim C3 — idempotence of `insert_incompleted` -/

theorem bool_eq_false {b : Bool} (h : ¬b = true) : b = false := by
  cases b
  · rfl
  · exact absurd rfl h

theorem exists_of_countB_pos {α : Type} {p : α → Bool} {l : List α}
    (h : 0 < countB p l) : ∃ x ∈ l, p x = true := by
  induction l with
  | nil => simp [countB] at h
  | cons a t ih =>
    by_cases hp : p a = true
    · exact ⟨a, List.mem_cons_self a t, hp⟩
    · simp only [countB, bool_eq_false hp, Bool.false_eq_true, if_false, Nat.zero_add] at h
      obtain ⟨x, hx, hpx⟩ := ih h
      exact ⟨x, List.mem_cons_of_mem a hx, hpx⟩

theorem keyMatch_iff {d p : String} {r : MediaRow} :
    keyMatch d p r = true ↔ r.domain = d ∧ r.url_path = p := by
  simp [keyMatch]

theorem noCrawlerMatch_iff {p ref : String} {r : MediaRow} :
    noCrawlerMatch p ref r = true ↔
      r.domain = "no_crawler" ∧ r.url_path = p ∧ r.referer = ref := by
  simp [noCrawlerMatch, and_assoc]

theorem mediaRow_eta_df {r : MediaRow} {df : String} (h : r.download_filename = df) :
    { r with download_filename := df } = r := by
  subst h
  rfl

theorem mediaRow_eta_da {r : MediaRow} {d : String} {a : Option String}
    (hd : r.domain = d) (ha : r.album_id = a) :
    { r with domain := d, album_id := a } = r := by
  subst hd
  subst ha
  rfl

theorem mem_insStep2 {row : MediaRow} {rows : List MediaRow} {r : MediaRow}
    (h : r ∈ insStep2 row rows) : r ∈ rows ∨ r = row := by
  unfold insStep2 at h
  split at h
  · exact Or.inl h
  · rcases List.mem_append.mp h with h1 | h1
    · exact Or.inl h1
    · exact Or.inr (List.mem_singleton.mp h1)

theorem insStep3_keyMatch (d p df d2 p2 : String) (x : MediaRow) :
    keyMatch d2 p2 (if keyMatch d p x then { x with download_filename := df } else x) =
      keyMatch d2 p2 x := by
  by_cases h : keyMatch d p x = true
  · rw [if_pos h]
    simp [keyMatch]
  · rw [if_neg h]

theorem insStep3_ncMatch (d p df p2 r2 : String) (x : MediaRow) :
    noCrawlerMatch p2 r2 (if keyMatch d p x then { x with download_filename := df } else x) =
      noCrawlerMatch p2 r2 x := by
  by_cases h : keyMatch d p x = true
  · rw [if_pos h]
    simp [noCrawlerMatch]
  · rw [if_neg h]

theorem insStep3_df {d p df : String} {rows : List MediaRow} :
    ∀ r ∈ insStep3 d p df rows, keyMatch d p r = true → r.download_filename = df := by
  intro r hr hk
  obtain ⟨x, hx, hfx⟩ := List.mem_map.mp hr
  by_cases h : keyMatch d p x = true
  · rw [← hfx, if_pos h]
  · rw [← hfx, if_neg h] at hk
    exact absurd hk h

theorem insStep1_no_ncMatch (d p ref : String) (album : Option String)
    (rows0 : List MediaRow) (hd : d ≠ "no_crawler") :
    ∀ x ∈ insStep1 d p ref album rows0, noCrawlerMatch p ref x = false := by
  intro x hx
  simp only [insStep1] at hx
  split at hx
  · have h2 := (List.mem_filter.mp hx).2
    cases hnc : noCrawlerMatch p ref x with
    | false => rfl
    | true =>
      obtain ⟨h3, h4, _⟩ := noCrawlerMatch_iff.mp hnc
      simp [h3, h4] at h2
  · obtain ⟨y, hy, hfy⟩ := List.mem_map.mp hx
    by_cases hm : noCrawlerMatch p ref y = true
    · rw [← hfy, if_pos hm]
      simp [noCrawlerMatch, hd]
    · rw [← hfy, if_neg hm]
      exact bool_eq_false hm

theorem insRows_no_ncMatch (d p ref : String) (album : Option String)
    (dpath df ofn : String) (t : Int) (rows0 : List MediaRow)
    (hd : d ≠ "no_crawler") :
    ∀ r ∈ insRows d p ref album dpath df ofn t rows0, noCrawlerMatch p ref r = false := by
  intro r hr
  obtain ⟨x, hx, hfx⟩ := List.mem_map.mp hr
  rw [← hfx, insStep3_ncMatch]
  rcases mem_insStep2 hx with h1 | h1
  · exact insStep1_no_ncMatch d p ref album rows0 hd x h1
  · subst h1
    simp [noCrawlerMatch, newMediaRow, hd]

theorem insRows_nc_album (d p ref : String) (album : Option String)
    (dpath df ofn : String) (t : Int) (rows0 : List MediaRow)
    (hd : d = "no_crawler") :
    ∀ r ∈ insRows d p ref album dpath df ofn t rows0,
      noCrawlerMatch p ref r = true → r.album_id = album := by
  intro r hr hm
  obtain ⟨x, hx, hfx⟩ := List.mem_map.mp hr
  have halb : r.album_id = x.album_id := by
    rw [← hfx]
    by_cases h : keyMatch d p x = true
    · rw [if_pos h]
    · rw [if_neg h]
  have hmx : noCrawlerMatch p ref x = true := by
    rw [← hfx, insStep3_ncMatch] at hm
    exact hm
  rw [halb]
  rcases mem_insStep2 hx with h1 | h1
  · simp only [insStep1] at h1
    rw [if_neg (by simp [hd])] at h1
    obtain ⟨y, hy, hfy⟩ := List.mem_map.mp h1
    by_cases hmy : noCrawlerMatch p ref y = true
    · rw [← hfy, if_pos hmy]
    · rw [← hfy, if_neg hmy] at hmx
      exact absurd hmx hmy
  · subst h1
    rfl

theorem insStep1_countB_le (d p ref : String) (album : Option String)
    (rows0 : List MediaRow) (hu : PKUnique rows0) :
    countB (keyMatch d p) (insStep1 d p ref album rows0) ≤ 1 := by
  have hbase : countB (keyMatch d p) rows0 ≤ 1 :=
    countB_le_one_of_key rowKey _ (d, p) (fun x hx => by
      obtain ⟨h1, h2⟩ := keyMatch_iff.mp hx
      simp [rowKey, h1, h2]) hu
  simp only [insStep1]
  split
  · exact Nat.le_trans (countB_filter_le _ _ _) hbase
  next hcond =>
    rw [countB_map]
    by_cases hd : d = "no_crawler"
    · have hpt : ∀ x ∈ rows0,
          keyMatch d p (if noCrawlerMatch p ref x then
            { x with domain := d, album_id := album } else x) = keyMatch d p x := by
        intro x hx
        by_cases hm : noCrawlerMatch p ref x = true
        · rw [if_pos hm]
          obtain ⟨h1, _, _⟩ := noCrawlerMatch_iff.mp hm
          simp [keyMatch, hd, h1]
        · rw [if_neg hm]
      rw [countB_congr hpt]
      exact hbase
    · by_cases hm : rows0.any (noCrawlerMatch p ref) = true
      · by_cases hta : (rows0.any fun r => !(noCrawlerMatch p ref r) && keyMatch d p r) = true
        · exact absurd (by simp [hm, hta, hd]) hcond
        · have hpt : ∀ x ∈ rows0,
              keyMatch d p (if noCrawlerMatch p ref x then
                { x with domain := d, album_id := album } else x) =
              noCrawlerMatch p ref x := by
            intro x hx
            by_cases hmx : noCrawlerMatch p ref x = true
            · rw [if_pos hmx, hmx]
              obtain ⟨_, h2, _⟩ := noCrawlerMatch_iff.mp hmx
              simp [keyMatch, h2]
            · rw [if_neg hmx, bool_eq_false hmx]
              have h2 := List.any_eq_false.mp (bool_eq_false hta) x hx
              cases hk : keyMatch d p x with
              | false => rfl
              | true => exact absurd (by simp [bool_eq_false hmx, hk]) h2
          rw [countB_congr hpt]
          exact countB_le_one_of_key rowKey _ ("no_crawler", p) (fun x hx => by
            obtain ⟨h1, h2, _⟩ := noCrawlerMatch_iff.mp hx
            simp [rowKey, h1, h2]) hu
      · have hpt : ∀ x ∈ rows0,
            keyMatch d p (if noCrawlerMatch p ref x then
              { x with domain := d, album_id := album } else x) = keyMatch d p x := by
          intro x hx
          rw [if_neg (fun hmx => (List.any_eq_false.mp (bool_eq_false hm) x hx) hmx)]
        rw [countB_congr hpt]
        exact hbase

theorem insStep2_countB_one (row : MediaRow) (l : List MediaRow)
    (hk : keyMatch row.domain row.url_path row = true)
    (hle : countB (keyMatch row.domain row.url_path) l ≤ 1) :
    countB (keyMatch row.domain row.url_path) (insStep2 row l) = 1 := by
  unfold insStep2
  by_cases ha : l.any (keyMatch row.domain row.url_path) = true
  · rw [if_pos ha]
    obtain ⟨x, hx, hkx⟩ := List.any_eq_true.mp ha
    have := countB_pos_of_mem hx hkx
    omega
  · rw [if_neg ha, countB_append]
    have h0 : countB (keyMatch row.domain row.url_path) l = 0 :=
      countB_eq_zero (fun x hx => bool_eq_false (List.any_eq_false.mp (bool_eq_false ha) x hx))
    simp [countB, h0, hk]

theorem insRows_countB_one (d p ref : String) (album : Option String)
    (dpath df ofn : String) (t : Int) (rows0 : List MediaRow) (hu : PKUnique rows0) :
    countB (keyMatch d p) (insRows d p ref album dpath df ofn t rows0) = 1 := by
  unfold insRows
  have h3 : countB (keyMatch d p)
      (insStep3 d p df (insStep2 (newMediaRow d p ref album dpath df ofn t)
        (insStep1 d p ref album rows0))) =
      countB (keyMatch d p) (insStep2 (newMediaRow d p ref album dpath df ofn t)
        (insStep1 d p ref album rows0)) := by
    unfold insStep3
    rw [countB_map]
    exact countB_congr (fun x hx => insStep3_keyMatch d p df d p x)
  rw [h3]
  exact insStep2_countB_one (newMediaRow d p ref album dpath df ofn t)
    (insStep1 d p ref album rows0) (by simp [newMediaRow, keyMatch])
    (insStep1_countB_le d p ref album rows0 hu)

theorem insRows_idem (d p ref : String) (album : Option String)
    (dpath df ofn : String) (t1 t2 : Int) (rows0 : List MediaRow) (hu : PKUnique rows0) :
    insRows d p ref album dpath df ofn t2 (insRows d p ref album dpath df ofn t1 rows0)
      = insRows d p ref album dpath df ofn t1 rows0 := by
  have hcount : countB (keyMatch d p) (insRows d p ref album dpath df ofn t1 rows0) = 1 :=
    insRows_countB_one d p ref album dpath df ofn t1 rows0 hu
  have hdf : ∀ r ∈ insRows d p ref album dpath df ofn t1 rows0,
      keyMatch d p r = true → r.download_filename = df :=
    fun r hr hk => insStep3_df r hr hk
  have hany : (insRows d p ref album dpath df ofn t1 rows0).any (keyMatch d p) = true := by
    obtain ⟨x, hx, hkx⟩ := @exists_of_countB_pos MediaRow (keyMatch d p)
      (insRows d p ref album dpath df ofn t1 rows0) (by omega)
    exact List.any_eq_true.mpr ⟨x, hx, hkx⟩
  have hstep1 : insStep1 d p ref album (insRows d p ref album dpath df ofn t1 rows0)
      = insRows d p ref album dpath df ofn t1 rows0 := by
    by_cases hd : d = "no_crawler"
    · simp only [insStep1]
      rw [if_neg (by simp [hd])]
      apply map_eq_self_of
      intro r hr
      by_cases hm : noCrawlerMatch p ref r = true
      · rw [if_pos hm]
        have ha := insRows_nc_album d p ref album dpath df ofn t1 rows0 hd r hr hm
        have hdom : r.domain = d := hd ▸ (noCrawlerMatch_iff.mp hm).1
        exact mediaRow_eta_da hdom ha
      · rw [if_neg hm]
    · have hnm := insRows_no_ncMatch d p ref album dpath df ofn t1 rows0 hd
      have hanyf : (insRows d p ref album dpath df ofn t1 rows0).any (noCrawlerMatch p ref)
          = false := any_eq_false_of hnm
      simp only [insStep1]
      rw [if_neg (by simp [hanyf])]
      apply map_eq_self_of
      intro r hr
      rw [if_neg (fun hmr => by simp [hnm r hr] at hmr)]
  have hstep2 : insStep2 (newMediaRow d p ref album dpath df ofn t2)
      (insRows d p ref album dpath df ofn t1 rows0)
      = insRows d p ref album dpath df ofn t1 rows0 := by
    unfold insStep2
    have hkm : keyMatch (newMediaRow d p ref album dpath df ofn t2).domain
        (newMediaRow d p ref album dpath df ofn t2).url_path = keyMatch d p := rfl
    rw [hkm, if_pos hany]
  have hstep3 : insStep3 d p df (insRows d p ref album dpath df ofn t1 rows0)
      = insRows d p ref album dpath df ofn t1 rows0 := by
    apply map_eq_self_of
    intro r hr
    by_cases hk : keyMatch d p r = true
    · rw [if_pos hk]
      exact mediaRow_eta_df (hdf r hr hk)
    · rw [if_neg hk]
  calc insRows d p ref album dpath df ofn t2 (insRows d p ref album dpath df ofn t1 rows0)
      = insStep3 d p df (insStep2 (newMediaRow d p ref album dpath df ofn t2)
          (insStep1 d p ref album (insRows d p ref album dpath df ofn t1 rows0))) := rfl
    _ = insStep3 d p df (insStep2 (newMediaRow d p ref album dpath df ofn t2)
          (insRows d p ref album dpath df ofn t1 rows0)) := by rw [hstep1]
    _ = insStep3 d p df (insRows d p ref album dpath df ofn t1 rows0) := by rw [hstep2]
    _ = insRows d p ref album dpath df ofn t1 rows0 := hstep3

/-- C3: calling `insert_incompleted` twice in succession with identical
MediaItem data (the timestamps of the two calls may differ) leaves the state
exactly as after the first call — in particular exactly one media record
exists for the resulting (domain, url_path) key, with the same field values
as after the first call. Requires the table's primary-key uniqueness. -/
theorem c3_insert_incompleted_idempotent (s : HistoryState) (domain : String)
    (m : MediaItem) (t1 t2 : Int) (hu : PKUnique s.rows) :
    insert_incompleted domain m t2 (insert_incompleted domain m t1 s)
      = insert_incompleted domain m t1 s ∧
    countB (keyMatch (get_db_domain domain) (get_db_path m.url m.referer))
      (insert_incompleted domain m t1 s).rows = 1 := by
  constructor
  · simp only [insert_incompleted]
    rw [insRows_idem (get_db_domain domain) (get_db_path m.url m.referer) m.referer
      m.album_id m.download_folder (m.download_filename.getD "") m.original_filename
      t1 t2 s.rows hu]
  · exact insRows_countB_one (get_db_domain domain) (get_db_path m.url m.referer)
      m.referer m.album_id m.download_folder (m.download_filename.getD "")
      m.original_filename t1 s.rows hu

theorem c3_witness :
    insert_incompleted "dom" ⟨⟨"/p", "p"⟩, "r", some "al", "dl", some "file", "orig"⟩ 2
        (insert_incompleted "dom" ⟨⟨"/p", "p"⟩, "r", some "al", "dl", some "file", "orig"⟩ 1
          ⟨[], false⟩)
      = insert_incompleted "dom" ⟨⟨"/p", "p"⟩, "r", some "al", "dl", some "file", "orig"⟩ 1
          ⟨[], false⟩ ∧
    countB (keyMatch (get_db_domain "dom")
      (get_db_path (MediaItem.url ⟨⟨"/p", "p"⟩, "r", some "al", "dl", some "file", "orig"⟩)
        (MediaItem.referer ⟨⟨"/p", "p"⟩, "r", some "al", "dl", some "file", "orig"⟩)))
      (insert_incompleted "dom" ⟨⟨"/p", "p"⟩, "r", some "al", "dl", some "file", "orig"⟩ 1
        ⟨[], false⟩).rows = 1 :=
  c3_insert_incompleted_idempotent ⟨[], false⟩ "dom"
    ⟨⟨"/p", "p"⟩, "r", some "al", "dl", some "file", "orig"⟩ 1 2 List.Pairwise.nil

/-! ## Claim C1 — completion monotonicity -/

theorem rowKey_pair {r : MediaRow} {d p : String} :
    rowKey r = (d, p) ↔ r.domain = d ∧ r.url_path = p := by
  simp [rowKey, Prod.ext_iff]

theorem keyMatch_rowKey {d p : String} {r : MediaRow} :
    keyMatch d p r = true ↔ rowKey r = (d, p) := by
  simp [keyMatch, rowKey, Prod.ext_iff]

theorem keyDoneRows_map {k : String × String} {rows : List MediaRow} {f : MediaRow → MediaRow}
    (hk : ∀ r ∈ rows, rowKey (f r) = rowKey r)
    (hc : ∀ r ∈ rows, rowKey r = k → r.completed ≠ 0 → (f r).completed ≠ 0)
    (h : KeyDoneRows k rows) : KeyDoneRows k (rows.map f) := by
  obtain ⟨⟨w, hw, hwk⟩, hall⟩ := h
  constructor
  · exact ⟨f w, List.mem_map_of_mem f hw, (hk w hw).trans hwk⟩
  · intro r hr hrk
    obtain ⟨x, hx, hfx⟩ := List.mem_map.mp hr
    subst hfx
    have hxk : rowKey x = k := (hk x hx).symm.trans hrk
    exact hc x hx hxk (hall x hx hxk)

theorem mark_complete_keyDone (domain : String) (m : MediaItem) (t : Int) (s : HistoryState)
    (hex : ∃ r ∈ s.rows, rowKey r = insKey domain m) :
    KeyDoneRows (insKey domain m) (mark_complete domain m t s).rows := by
  obtain ⟨w, hw, hwk⟩ := hex
  simp only [mark_complete]
  constructor
  · refine ⟨{ w with completed := 1, completed_at := some t },
      List.mem_map.mpr ⟨w, hw, ?_⟩, ?_⟩
    · rw [if_pos (keyMatch_rowKey.mpr hwk)]
    · simpa [rowKey] using hwk
  · intro r hr hrk
    obtain ⟨x, hx, hfx⟩ := List.mem_map.mp hr
    by_cases hkx : keyMatch (get_db_domain domain) (get_db_path m.url m.referer) x = true
    · rw [← hfx, if_pos hkx]
      simp
    · rw [← hfx, if_neg hkx] at hrk ⊢
      exact absurd (keyMatch_rowKey.mpr hrk) hkx

theorem insStep1_keyDone (d p ref : String) (album : Option String) (rows0 : List MediaRow)
    (h : KeyDoneRows (d, p) rows0) :
    KeyDoneRows (d, p) (insStep1 d p ref album rows0) := by
  obtain ⟨⟨w, hw, hwk⟩, hall⟩ := h
  simp only [insStep1]
  split
  next hcond =>
    have hd : d ≠ "no_crawler" := by
      intro hdd
      simp [hdd] at hcond
    constructor
    · refine ⟨w, List.mem_filter.mpr ⟨hw, ?_⟩, hwk⟩
      have hwd : w.domain = d := (rowKey_pair.mp hwk).1
      simp [hwd, hd]
    · intro r hr hrk
      exact hall r (List.mem_filter.mp hr).1 hrk
  next hcond =>
    constructor
    · by_cases hmw : noCrawlerMatch p ref w = true
      · have h1 := (noCrawlerMatch_iff.mp hmw).1
        have hup : w.url_path = p := (rowKey_pair.mp hwk).2
        refine ⟨{ w with domain := d, album_id := album },
          List.mem_map.mpr ⟨w, hw, by rw [if_pos hmw]⟩, ?_⟩
        simp [rowKey, hup]
      · refine ⟨w, List.mem_map.mpr ⟨w, hw, by rw [if_neg hmw]⟩, hwk⟩
    · intro r hr hrk
      obtain ⟨x, hx, hfx⟩ := List.mem_map.mp hr
      by_cases hmx : noCrawlerMatch p ref x = true
      · rw [← hfx, if_pos hmx]
        by_cases hd : d = "no_crawler"
        · have hxk : rowKey x = (d, p) := by
            obtain ⟨ha, hb, _⟩ := noCrawlerMatch_iff.mp hmx
            simp [rowKey, ha, hb, hd]
          simpa using hall x hx hxk
        · exfalso
          apply hcond
          have hMatch : rows0.any (noCrawlerMatch p ref) = true :=
            List.any_eq_true.mpr ⟨x, hx, hmx⟩
          have hwdom : w.domain = d := (rowKey_pair.mp hwk).1
          have hwnm : noCrawlerMatch p ref w = false := by
            cases hq : noCrawlerMatch p ref w with
            | false => rfl
            | true =>
              exact absurd (hwdom.symm.trans (noCrawlerMatch_iff.mp hq).1) hd
          have hTarget : (rows0.any fun r => !(noCrawlerMatch p ref r) && keyMatch d p r)
              = true :=
            List.any_eq_true.mpr ⟨w, hw, by simp [hwnm, keyMatch_rowKey.mpr hwk]⟩
          simp [hMatch, hTarget, hd]
      · rw [← hfx, if_neg hmx] at hrk ⊢
        exact hall x hx hrk

theorem insStep2_skip (d p ref : String) (album : Option String)
    (dpath df ofn : String) (t : Int) (l : List MediaRow)
    (h : KeyDoneRows (d, p) l) :
    insStep2 (newMediaRow d p ref album dpath df ofn t) l = l := by
  unfold insStep2
  have hkm : keyMatch (newMediaRow d p ref album dpath df ofn t).domain
      (newMediaRow d p ref album dpath df ofn t).url_path = keyMatch d p := rfl
  obtain ⟨x, hx, hxk⟩ := h.1
  rw [hkm, if_pos (List.any_eq_true.mpr ⟨x, hx, keyMatch_rowKey.mpr hxk⟩)]

theorem insStep3_keyDone (d2 p2 df : String) (l : List MediaRow) (k : String × String)
    (h : KeyDoneRows k l) : KeyDoneRows k (insStep3 d2 p2 df l) := by
  unfold insStep3
  refine keyDoneRows_map ?_ ?_ h
  · intro r hr
    by_cases hk2 : keyMatch d2 p2 r = true
    · rw [if_pos hk2]
      simp [rowKey]
    · rw [if_neg hk2]
  · intro r hr hk2 hc2
    by_cases hh : keyMatch d2 p2 r = true
    · rw [if_pos hh]
      simpa using hc2
    · rw [if_neg hh]
      exact hc2

theorem insRows_keyDone (d p ref : String) (album : Option String)
    (dpath df ofn : String) (t : Int) (rows0 : List MediaRow)
    (h : KeyDoneRows (d, p) rows0) :
    KeyDoneRows (d, p) (insRows d p ref album dpath df ofn t rows0) := by
  have h1 := insStep1_keyDone d p ref album rows0 h
  unfold insRows
  rw [insStep2_skip d p ref album dpath df ofn t _ h1]
  exact insStep3_keyDone d p df _ _ h1

theorem keyDone_mark (domain : String) (m : MediaItem) (t : Int) (s : HistoryState)
    (k : String × String) (h : KeyDoneRows k s.rows) :
    KeyDoneRows k (mark_complete domain m t s).rows := by
  simp only [mark_complete]
  refine keyDoneRows_map ?_ ?_ h
  · intro r hr
    by_cases hk2 : keyMatch (get_db_domain domain) (get_db_path m.url m.referer) r = true
    · rw [if_pos hk2]
      simp [rowKey]
    · rw [if_neg hk2]
  · intro r hr hk2 hc2
    by_cases hh : keyMatch (get_db_domain domain) (get_db_path m.url m.referer) r = true
    · rw [if_pos hh]
      simp
    · rw [if_neg hh]
      exact hc2

theorem keyDone_set_album (domain : String) (m : MediaItem) (s : HistoryState)
    (k : String × String) (h : KeyDoneRows k s.rows) :
    KeyDoneRows k (set_album_id domain m s).rows := by
  simp only [set_album_id]
  refine keyDoneRows_map ?_ ?_ h
  · intro r hr
    by_cases hk2 : keyMatch (get_db_domain domain) (get_db_path m.url m.referer) r = true
    · rw [if_pos hk2]
      simp [rowKey]
    · rw [if_neg hk2]
  · intro r hr hk2 hc2
    by_cases hh : keyMatch (get_db_domain domain) (get_db_path m.url m.referer) r = true
    · rw [if_pos hh]
      exact hc2
    · rw [if_neg hh]
      exact hc2

theorem keyDone_add_filesize (domain : String) (m : MediaItem) (sz : Int) (s : HistoryState)
    (k : String × String) (h : KeyDoneRows k s.rows) :
    KeyDoneRows k (add_filesize domain m sz s).rows := by
  simp only [add_filesize]
  refine keyDoneRows_map ?_ ?_ h
  · intro r hr
    by_cases hk2 : keyMatch (get_db_domain domain) (get_db_path m.url m.referer) r = true
    · rw [if_pos hk2]
      simp [rowKey]
    · rw [if_neg hk2]
  · intro r hr hk2 hc2
    by_cases hh : keyMatch (get_db_domain domain) (get_db_path m.url m.referer) r = true
    · rw [if_pos hh]
      exact hc2
    · rw [if_neg hh]
      exact hc2

theorem keyDone_check (domain : String) (url : UrlM) (ref : String) (s : HistoryState)
    (k : String × String) (h : KeyDoneRows k s.rows) :
    KeyDoneRows k (check_complete domain url ref s).2.rows := by
  simp only [check_complete]
  split
  · exact h
  · split
    · exact h
    · split
      · exact h
      · split
        · exact h
        · refine keyDoneRows_map ?_ ?_ h
          · intro r hr
            by_cases hk2 : keyMatch (get_db_domain domain)
                (get_db_path url (get_db_domain domain)) r = true
            · rw [if_pos hk2]
              simp [rowKey]
            · rw [if_neg hk2]
          · intro r hr hk2 hc2
            by_cases hh : keyMatch (get_db_domain domain)
                (get_db_path url (get_db_domain domain)) r = true
            · rw [if_pos hh]
              exact hc2
            · rw [if_neg hh]
              exact hc2

theorem keyDone_applyOp (s : HistoryState) (op : LedgerOp) (k : String × String)
    (hk : ∀ d' m' t', op = LedgerOp.insertIncompleted d' m' t' → insKey d' m' = k)
    (h : KeyDoneRows k s.rows) : KeyDoneRows k (applyOp s op).rows := by
  cases op with
  | insertIncompleted d' m' t' =>
    have hkey := hk d' m' t' rfl
    subst hkey
    exact insRows_keyDone (get_db_domain d') (get_db_path m'.url m'.referer) m'.referer
      m'.album_id m'.download_folder (m'.download_filename.getD "") m'.original_filename
      t' s.rows h
  | markComplete d' m' t' => exact keyDone_mark d' m' t' s k h
  | checkComplete d' u' r' => exact keyDone_check d' u' r' s k h
  | setAlbumId d' m' => exact keyDone_set_album d' m' s k h
  | addFilesize d' m' sz => exact keyDone_add_filesize d' m' sz s k h

theorem applyOp_ignore (s : HistoryState) (op : LedgerOp) :
    (applyOp s op).ignore_history = s.ignore_history := by
  cases op with
  | insertIncompleted d m t => rfl
  | markComplete d m t => rfl
  | checkComplete d u ref =>
    simp only [applyOp, check_complete]
    repeat' split
    all_goals rfl
  | setAlbumId d m => rfl
  | addFilesize d m sz => rfl

theorem keyDone_foldl (ops : List LedgerOp) (k : String × String) : ∀ s : HistoryState,
    (∀ op ∈ ops, ∀ d' m' t', op = LedgerOp.insertIncompleted d' m' t' → insKey d' m' = k) →
    KeyDoneRows k s.rows → KeyDoneRows k (ops.foldl applyOp s).rows := by
  induction ops with
  | nil => intro s _ h; exact h
  | cons op t ih =>
    intro s hops h
    simp only [List.foldl_cons]
    exact ih (applyOp s op) (fun o ho => hops o (List.mem_cons_of_mem op ho))
      (keyDone_applyOp s op k (hops op (List.mem_cons_self op t)) h)

theorem ignore_foldl (ops : List LedgerOp) : ∀ s : HistoryState,
    (ops.foldl applyOp s).ignore_history = s.ignore_history := by
  induction ops with
  | nil => intro s; rfl
  | cons op t ih =>
    intro s
    simp only [List.foldl_cons]
    rw [ih (applyOp s op), applyOp_ignore]

theorem check_complete_true_of_keyDone (domain : String) (url : UrlM) (ref : String)
    (s : HistoryState) (hig : s.ignore_history = false)
    (h : KeyDoneRows (get_db_domain domain, get_db_path url (get_db_domain domain)) s.rows) :
    (check_complete domain url ref s).1 = true := by
  simp only [check_complete, hig, Bool.false_eq_true, if_false]
  cases hl : s.rows.filter
      (keyMatch (get_db_domain domain) (get_db_path url (get_db_domain domain))) with
  | nil =>
    exfalso
    obtain ⟨x, hx, hxk⟩ := h.1
    have hmem : x ∈ s.rows.filter
        (keyMatch (get_db_domain domain) (get_db_path url (get_db_domain domain))) :=
      List.mem_filter.mpr ⟨hx, keyMatch_rowKey.mpr hxk⟩
    rw [hl] at hmem
    cases hmem
  | cons a tl =>
    have ha := List.mem_filter.mp (hl ▸ List.mem_cons_self a tl)
    have hc : a.completed ≠ 0 := h.2 a ha.1 (keyMatch_rowKey.mp ha.2)
    simp only [List.head?_cons]
    rw [if_neg (by simp [hc])]
    split <;> rfl

/-- C1: for a ledger key on which `mark_complete` has succeeded (a record for
that key existed when `mark_complete` ran, ignore-history off), any
subsequent sequence of public ledger operations in which every
`insert_incompleted` call targets that same key leaves `check_complete` for
that key returning true — the completed flag is never reverted. -/
theorem c1_mark_complete_monotone (s : HistoryState) (dm dc : String) (m : MediaItem)
    (t : Int) (ops : List LedgerOp) (urlc : UrlM) (refc : String)
    (hig : s.ignore_history = false)
    (hex : ∃ r ∈ s.rows, rowKey r = insKey dm m)
    (hops : ∀ op ∈ ops, ∀ d' m' t', op = LedgerOp.insertIncompleted d' m' t' →
      insKey d' m' = insKey dm m)
    (hkey : (get_db_domain dc, get_db_path urlc (get_db_domain dc)) = insKey dm m) :
    (check_complete dc urlc refc (ops.foldl applyOp (mark_complete dm m t s))).1 = true := by
  have h0 : KeyDoneRows (insKey dm m) (mark_complete dm m t s).rows :=
    mark_complete_keyDone dm m t s hex
  have h1 : KeyDoneRows (insKey dm m) ((ops.foldl applyOp (mark_complete dm m t s))).rows :=
    keyDone_foldl ops (insKey dm m) (mark_complete dm m t s) hops h0
  have h2 : ((ops.foldl applyOp (mark_complete dm m t s))).ignore_history = false := by
    rw [ignore_foldl]
    exact hig
  exact check_complete_true_of_keyDone dc urlc refc _ h2 (by rw [hkey]; exact h1)

theorem c1_witness :
    (check_complete "d" ⟨"/p", "p"⟩ "r2"
      (wOpsC1.foldl applyOp (mark_complete "d" wMediaC1 1 wStateC1))).1 = true :=
  c1_mark_complete_monotone wStateC1 "d" "d" wMediaC1 1 wOpsC1 ⟨"/p", "p"⟩ "r2"
    rfl (by decide)
    (by
      intro op hop d' m' t' he
      have h1 := List.mem_singleton.mp hop
      subst h1
      cases he
      rfl)
    (by decide)
